import Mathlib

/-
Verification of the AutoRAG ingestion pipeline core
(src/scripts/chunker.py, src/scripts/embedder.py, src/scripts/uploader.py).

Python strings are modeled as `List Char`.  Each definition below is a direct
translation of the corresponding Python function; doc comments name the source
function and line range it embeds.
-/

namespace AutoRAG

/-! ### Python string primitives -/

/-- The whitespace characters stripped by Python's `str.strip()` (ASCII range). -/
def pySpace (c : Char) : Bool :=
  c = ' ' || c = '\t' || c = '\n' || c = '\r' || c = '\x0b' || c = '\x0c'

/-- Remove every whitespace character.  Used to compare texts
"modulo whitespace normalization". -/
def dropWs (xs : List Char) : List Char :=
  xs.filter (fun c => !pySpace c)

/-- Python `str.strip()`: drop leading and trailing whitespace. -/
def pyStrip (xs : List Char) : List Char :=
  ((xs.dropWhile pySpace).reverse.dropWhile pySpace).reverse

/-- Prepend a character to the first segment of a split result
(the result of a split is never empty, but the `[]` case keeps this total). -/
def consHead (c : Char) : List (List Char) → List (List Char)
  | [] => [[c]]
  | p :: ps => (c :: p) :: ps

/-- Python `text.split('\n\n')` (chunker.py line 32): split on each leftmost
non-overlapping occurrence of two consecutive newlines. -/
def splitPar : List Char → List (List Char)
  | [] => [[]]
  | '\n' :: '\n' :: rest => [] :: splitPar rest
  | c :: rest => consHead c (splitPar rest)

/-- Python `paragraph.split('\n')` (chunker.py line 40): split on newlines. -/
def splitNL : List Char → List (List Char)
  | [] => [[]]
  | '\n' :: rest => [] :: splitNL rest
  | c :: rest => consHead c (splitNL rest)

/-- Python `paragraph.replace('. ', '.\n')` (chunker.py line 40): rewrite each
leftmost non-overlapping occurrence of a sentence-ending `". "` to `".\n"`. -/
def replaceDotSpace : List Char → List Char
  | [] => []
  | '.' :: ' ' :: rest => '.' :: '\n' :: replaceDotSpace rest
  | c :: rest => c :: replaceDotSpace rest

/-! ### Chunker data model (chunker.py) -/

/-- The `metadata` dictionary attached to each chunk (chunker.py lines 46-48). -/
structure ChunkMeta where
  source : List Char
  deriving DecidableEq, Repr

/-- A chunk as produced by `split_into_chunks` (chunker.py lines 43-49):
`{"id": ..., "text": ..., "metadata": {"source": ...}}`.  The Python `id` is a
freshly generated uuid4; since the claims never depend on its value, it is
modeled as the chunk's position index. -/
structure Chunk where
  id : Nat
  text : List Char
  metadata : ChunkMeta
  deriving DecidableEq, Repr

/-- Loop body of the sentence loop (chunker.py lines 41-55).  State is
`(chunks so far, current_chunk)`.
Python:
```
if len(current_chunk) + len(sentence) > target_size and current_chunk:
    chunks.append(current_chunk.strip()); current_chunk = sentence
else:
    current_chunk = current_chunk + " " + sentence if current_chunk else sentence
```
-/
def procSentence (target_size : Nat) (st : List (List Char) × List Char)
    (sentence : List Char) : List (List Char) × List Char :=
  if st.2.length + sentence.length > target_size ∧ st.2 ≠ [] then
    (st.1 ++ [pyStrip st.2], sentence)
  else if st.2 ≠ [] then
    (st.1, st.2 ++ ' ' :: sentence)
  else
    (st.1, sentence)

/-- Loop body of the paragraph loop (chunker.py lines 36-70).
`len(paragraph) > target_size * 1.5` is the integer-exact `2·len > 3·target`.
Python:
```
if len(paragraph) > target_size * 1.5:
    for sentence in paragraph.replace('. ', '.\n').split('\n'): ...
elif len(current_chunk) + len(paragraph) > target_size and current_chunk:
    chunks.append(current_chunk.strip()); current_chunk = paragraph
else:
    current_chunk = current_chunk + "\n\n" + paragraph if current_chunk else paragraph
```
-/
def procParagraph (target_size : Nat) (st : List (List Char) × List Char)
    (paragraph : List Char) : List (List Char) × List Char :=
  if 2 * paragraph.length > 3 * target_size then
    (splitNL (replaceDotSpace paragraph)).foldl (procSentence target_size) st
  else if st.2.length + paragraph.length > target_size ∧ st.2 ≠ [] then
    (st.1 ++ [pyStrip st.2], paragraph)
  else if st.2 ≠ [] then
    (st.1, st.2 ++ '\n' :: '\n' :: paragraph)
  else
    (st.1, paragraph)

/-- The chunk texts produced by `split_into_chunks` (chunker.py lines 31-80):
paragraph loop over `text.split('\n\n')` followed by the final
`if current_chunk: chunks.append(current_chunk.strip())` flush. -/
def segmentTexts (text : List Char) (target_size : Nat) : List (List Char) :=
  let st := (splitPar text).foldl (procParagraph target_size) ([], [])
  if st.2 ≠ [] then st.1 ++ [pyStrip st.2] else st.1

/-- `split_into_chunks(text, file_name, target_size=750)` (chunker.py
lines 19-82): each flushed text is wrapped as
`{"id": uuid, "text": t, "metadata": {"source": file_name}}`
(ids modeled as position indices). -/
def split_into_chunks (text : List Char) (file_name : List Char)
    (target_size : Nat := 750) : List Chunk :=
  ((segmentTexts text target_size).enum).map
    (fun p => { id := p.1, text := p.2, metadata := { source := file_name } })

/-- The atomic units of one paragraph: the pseudo-sentences when the paragraph
triggers the long-paragraph rule (chunker.py lines 38-40), otherwise the
paragraph itself. -/
def paragraphUnits (target_size : Nat) (paragraph : List Char) :
    List (List Char) :=
  if 2 * paragraph.length > 3 * target_size then
    splitNL (replaceDotSpace paragraph)
  else
    [paragraph]

/-- All atomic units (paragraphs / pseudo-sentences) of a text, in order. -/
def textUnits (text : List Char) (target_size : Nat) : List (List Char) :=
  ((splitPar text).map (paragraphUnits target_size)).flatten

/-- Maximum length of an atomic unit of the text. -/
def maxUnitLen (text : List Char) (target_size : Nat) : Nat :=
  (textUnits text target_size).foldr (fun u m => max u.length m) 0

/-! ### Embedder (embedder.py)

The remote embedding service (`client.embeddings.create`, embedder.py
lines 57-60 and 86-89) is modeled as an oracle
`svc : List Char → Except (List Char) emb`: applied to the request text it
either returns the embedding vector or fails with the exception's message
string (`str(e)`).  The embedding vector type is an arbitrary `emb`. -/

/-- `truncate_text(text, max_tokens=8000)` (embedder.py lines 7-26). -/
def truncate_text (text : List Char) (max_tokens : Nat := 8000) : List Char :=
  let char_limit := max_tokens * 4
  if text.length > char_limit then text.take char_limit else text

/-- Python `str.lower()` (ASCII). -/
def pyLower (xs : List Char) : List Char := xs.map Char.toLower

/-- Python substring test `needle in hay`. -/
def containsSub (needle : List Char) : List Char → Bool
  | [] => needle.isPrefixOf []
  | c :: rest => needle.isPrefixOf (c :: rest) || containsSub needle rest

/-- The length-related-failure test
`"token" in str(e).lower() or "limit" in str(e).lower()`
(embedder.py line 78). -/
def isLengthErr (e : List Char) : Bool :=
  containsSub ['t', 'o', 'k', 'e', 'n'] (pyLower e) ||
    containsSub ['l', 'i', 'm', 'i', 't'] (pyLower e)

/-- A chunk enriched with its embedding (embedder.py lines 66-69 and 93-98):
`{**chunk, "embedding": ...}`, plus `"truncated": True` and a rewritten
`"text"` on the retry path.  The absent `truncated` key of the primary path is
modeled as `truncated := false`. -/
structure EChunk (emb : Type) where
  id : Nat
  text : List Char
  metadata : ChunkMeta
  embedding : emb
  truncated : Bool
  deriving DecidableEq, Repr

/-- One iteration of the embedding loop (embedder.py lines 51-103): the
`try`/`except` body for a single chunk.  Returns the chunks appended to
`embedded_chunks` (zero or one), the increment of the `failures` counter, and
the list of texts sent to the embedding service (primary request, then the
retry request if one is made). -/
def embedChunk {emb : Type} (svc : List Char → Except (List Char) emb)
    (chunk : Chunk) : List (EChunk emb) × Nat × List (List Char) :=
  let truncated_text := truncate_text chunk.text 8000
  match svc truncated_text with
  | .ok embedding =>
    ([{ id := chunk.id, text := chunk.text, metadata := chunk.metadata,
        embedding := embedding, truncated := false }], 0, [truncated_text])
  | .error e =>
    if isLengthErr e then
      let half_length := chunk.text.length / 2
      let retry_text := chunk.text.take half_length
      match svc retry_text with
      | .ok embedding =>
        ([{ id := chunk.id, text := retry_text, metadata := chunk.metadata,
            embedding := embedding, truncated := true }], 1,
          [truncated_text, retry_text])
      | .error _ => ([], 1, [truncated_text, retry_text])
    else
      ([], 1, [truncated_text])

/-- `embed_chunks(chunks)` (embedder.py lines 28-108).  Returns
`(embedded_chunks, failures, requests)` where `failures` is the counter
reported at line 106 and `requests` is the sequence of texts sent to the
embedding service. -/
def embed_chunks {emb : Type} (svc : List Char → Except (List Char) emb) :
    List Chunk → List (EChunk emb) × Nat × List (List Char)
  | [] => ([], 0, [])
  | chunk :: rest =>
    let r := embedChunk svc chunk
    let rs := embed_chunks svc rest
    (r.1 ++ rs.1, r.2.1 + rs.2.1, r.2.2 ++ rs.2.2)

/-- Whether a chunk's primary embedding request fails (embedder.py line 72:
control reaches the `except` branch, where `failures += 1` runs at line 73). -/
def primaryFails {emb : Type} (svc : List Char → Except (List Char) emb)
    (chunk : Chunk) : Bool :=
  match svc (truncate_text chunk.text 8000) with
  | .ok _ => false
  | .error _ => true

/-- Whether a chunk is excluded from `embedded_chunks`: its primary request
fails and it is not recovered by a successful length-error retry
(embedder.py lines 72-103). -/
def chunkDropped {emb : Type} (svc : List Char → Except (List Char) emb)
    (chunk : Chunk) : Bool :=
  match svc (truncate_text chunk.text 8000) with
  | .ok _ => false
  | .error e =>
    if isLengthErr e then
      match svc (chunk.text.take (chunk.text.length / 2)) with
      | .ok _ => false
      | .error _ => true
    else
      true

/-! ### Uploader (uploader.py)

The Pinecone client is modeled by its observable calls: the list of existing
index names is an input, and the function returns the sequence of
`create_index` / `upsert` calls it makes. -/

/-- A record prepared for upsert (uploader.py lines 65-72):
`{"id": ..., "values": ..., "metadata": {"text": ..., "source": ...}}`. -/
structure PineVector (emb : Type) where
  id : Nat
  values : emb
  metadata_text : List Char
  metadata_source : List Char
  deriving DecidableEq, Repr

/-- An observable call to the Pinecone service. -/
inductive PineCall (emb : Type) where
  | createIndex (name : List Char) (dimension : Nat) (metric : List Char)
  | upsert (vectors : List (PineVector emb))
  deriving DecidableEq, Repr

/-- The vector built from one embedded chunk (uploader.py lines 64-72). -/
def chunkVector {emb : Type} (chunk : EChunk emb) : PineVector emb :=
  { id := chunk.id, values := chunk.embedding,
    metadata_text := chunk.text, metadata_source := chunk.metadata.source }

/-- The batching loop of `upload_to_pinecone` (uploader.py lines 64-81):
append each chunk's vector, upsert and reset whenever `len(vectors) >= 100`
(`batch_size = 100`, line 62), and upsert any remaining vectors after the
loop. -/
def uploadLoop {emb : Type} :
    List (EChunk emb) → List (PineVector emb) → List (PineCall emb)
  | [], vectors => if vectors.isEmpty then [] else [.upsert vectors]
  | chunk :: rest, vectors =>
    let vectors2 := vectors ++ [chunkVector chunk]
    if vectors2.length ≥ 100 then .upsert vectors2 :: uploadLoop rest []
    else uploadLoop rest vectors2

/-- Models `initialize_pinecone(index_name)` (uploader.py lines 7-47):
given the names of the existing indexes
(`[index.name for index in pc.list_indexes()]`, line 31), emit a
`create_index(name, dimension=1536, metric="cosine")` call when the name is
absent (lines 32-43). -/
def setup_pinecone {emb : Type} (existing : List (List Char))
    (index_name : List Char) : List (PineCall emb) :=
  if index_name ∉ existing then
    [.createIndex index_name 1536 ['c', 'o', 's', 'i', 'n', 'e']]
  else
    []

/-- `upload_to_pinecone(embedded_chunks, index_name)` (uploader.py
lines 49-83): provision the index, then run the batching loop.  Returns the
sequence of Pinecone calls made, in order. -/
def upload_to_pinecone {emb : Type} (existing : List (List Char))
    (embedded_chunks : List (EChunk emb)) (index_name : List Char) :
    List (PineCall emb) :=
  setup_pinecone existing index_name ++ uploadLoop embedded_chunks []

/-- The payload of an upsert call. -/
def upsertPayload {emb : Type} : PineCall emb → Option (List (PineVector emb))
  | .upsert vectors => some vectors
  | .createIndex _ _ _ => none

/-- The batches sent by a call sequence. -/
def upsertBatches {emb : Type} (calls : List (PineCall emb)) :
    List (List (PineVector emb)) :=
  calls.filterMap upsertPayload

/-! ### Concrete instances used by witnesses and counterexamples -/

/-- An embedding service that accepts only one-character texts and otherwise
fails with the message `"token"` (so the retry on a two-character text
succeeds). -/
def svcTok : List Char → Except (List Char) Nat :=
  fun t => if t.length ≤ 1 then .ok 0 else .error ['t', 'o', 'k', 'e', 'n']

/-- A two-character chunk: its primary request fails against `svcTok` and its
half-length retry succeeds. -/
def cTok : Chunk := { id := 0, text := ['a', 'b'], metadata := { source := ['s'] } }

/-- An embedding service that always succeeds and returns the length of the
request text as the "embedding", so the embedding identifies the text sent. -/
def svcLen : List Char → Except (List Char) Nat :=
  fun t => .ok t.length

/-- A chunk whose text exceeds the 32000-character defensive-truncation
limit. -/
def bigChunk : Chunk :=
  { id := 0, text := List.replicate 32001 'a', metadata := { source := ['s'] } }

/-- An embedding service that always succeeds. -/
def svcZero : List Char → Except (List Char) Nat :=
  fun _ => .ok 0

/-- A small chunk for witnesses. -/
def cSmall : Chunk := { id := 3, text := ['h', 'i'], metadata := { source := ['s'] } }

/-- 250 embedded chunks, for the batching example of the spec. -/
def cs250 : List (EChunk Nat) :=
  (List.range 250).map (fun i =>
    { id := i, text := ['t'], metadata := { source := ['s'] },
      embedding := 0, truncated := false })

/-! ### Lemmas about the string primitives -/

theorem dropWs_nil : dropWs [] = [] := rfl

theorem dropWs_cons (c : Char) (xs : List Char) :
    dropWs (c :: xs) = if pySpace c then dropWs xs else c :: dropWs xs := by
  by_cases h : pySpace c <;> simp [dropWs, List.filter_cons, h]

theorem dropWs_append (xs ys : List Char) :
    dropWs (xs ++ ys) = dropWs xs ++ dropWs ys := by
  simp [dropWs, List.filter_append]

theorem dropWs_dropWhile (xs : List Char) :
    dropWs (xs.dropWhile pySpace) = dropWs xs := by
  induction xs with
  | nil => rfl
  | cons c rest ih =>
    by_cases h : pySpace c
    · simp [List.dropWhile_cons, h, ih, dropWs_cons]
    · simp [List.dropWhile_cons, h]

theorem dropWs_reverse (xs : List Char) :
    dropWs xs.reverse = (dropWs xs).reverse := by
  simp [dropWs, List.filter_reverse]

theorem dropWs_pyStrip (xs : List Char) :
    dropWs (pyStrip xs) = dropWs xs := by
  simp [pyStrip, dropWs_reverse, dropWs_dropWhile]

theorem pyStrip_ne_nil_of_dropWs (xs : List Char) (h : dropWs xs ≠ []) :
    pyStrip xs ≠ [] := by
  intro hz
  apply h
  have := dropWs_pyStrip xs
  rw [hz] at this
  exact this.symm

theorem pyStrip_length_le (xs : List Char) :
    (pyStrip xs).length ≤ xs.length := by
  calc (pyStrip xs).length
      = ((xs.dropWhile pySpace).reverse.dropWhile pySpace).length := by
        simp [pyStrip]
    _ ≤ (xs.dropWhile pySpace).reverse.length :=
        List.IsSuffix.length_le (List.dropWhile_suffix pySpace)
    _ = (xs.dropWhile pySpace).length := by simp
    _ ≤ xs.length := List.IsSuffix.length_le (List.dropWhile_suffix pySpace)

theorem flatten_consHead (c : Char) (L : List (List Char)) :
    (consHead c L).flatten = c :: L.flatten := by
  cases L <;> simp [consHead]

theorem dropWs_flatten_splitNL (xs : List Char) :
    dropWs (splitNL xs).flatten = dropWs xs := by
  induction xs using splitNL.induct with
  | case1 => rfl
  | case2 rest ih => simpa [splitNL] using ih
  | case3 c rest hne ih =>
    rw [splitNL.eq_3 c rest hne, flatten_consHead, dropWs_cons, dropWs_cons, ih]

theorem dropWs_flatten_splitPar (xs : List Char) :
    dropWs (splitPar xs).flatten = dropWs xs := by
  induction xs using splitPar.induct with
  | case1 => rfl
  | case2 rest ih =>
    have h1 : pySpace '\n' = true := by decide
    simp [splitPar, dropWs_cons, h1, ih]
  | case3 c rest hne ih =>
    rw [splitPar.eq_3 c rest hne, flatten_consHead, dropWs_cons, dropWs_cons, ih]

theorem dropWs_replaceDotSpace (xs : List Char) :
    dropWs (replaceDotSpace xs) = dropWs xs := by
  induction xs using replaceDotSpace.induct with
  | case1 => rfl
  | case2 rest ih =>
    have h1 : pySpace '\n' = true := by decide
    have h2 : pySpace ' ' = true := by decide
    have h3 : pySpace '.' = false := by decide
    simp [replaceDotSpace, dropWs_cons, h1, h2, h3, ih]
  | case3 c rest hne ih =>
    rw [replaceDotSpace.eq_3 c rest hne, dropWs_cons, dropWs_cons, ih]

/-! ### Content preservation through the segmentation fold (for C9) -/

theorem foldl_procSentence_content (t : Nat) (sents : List (List Char)) :
    ∀ (st : List (List Char) × List Char) (tail : List Char),
      dropWs ((sents.foldl (procSentence t) st).1.flatten ++
          ((sents.foldl (procSentence t) st).2 ++ tail))
        = dropWs (st.1.flatten ++ (st.2 ++ (sents.flatten ++ tail))) := by
  induction sents with
  | nil => intro st tail; simp
  | cons s rest ih =>
    intro st tail
    rw [List.foldl_cons, ih]
    have hsp : pySpace ' ' = true := by decide
    unfold procSentence
    split_ifs with h1 h2
    · simp [dropWs_append, dropWs_pyStrip, List.append_assoc]
    · simp [dropWs_append, dropWs_cons, hsp, List.append_assoc]
    · have h3 : st.2 = [] := by
        by_contra hne
        exact h2 hne
      simp [h3, dropWs_append, List.append_assoc]

theorem foldl_procParagraph_content (t : Nat) (ps : List (List Char)) :
    ∀ (st : List (List Char) × List Char) (tail : List Char),
      dropWs ((ps.foldl (procParagraph t) st).1.flatten ++
          ((ps.foldl (procParagraph t) st).2 ++ tail))
        = dropWs (st.1.flatten ++ (st.2 ++ (ps.flatten ++ tail))) := by
  induction ps with
  | nil => intro st tail; simp
  | cons p rest ih =>
    intro st tail
    rw [List.foldl_cons, ih]
    have hsp : pySpace '\n' = true := by decide
    unfold procParagraph
    split_ifs with h1 h2 h3
    · rw [foldl_procSentence_content]
      simp [dropWs_append, dropWs_flatten_splitNL, dropWs_replaceDotSpace,
        List.append_assoc]
    · simp [dropWs_append, dropWs_pyStrip, List.append_assoc]
    · simp [dropWs_append, dropWs_cons, hsp, List.append_assoc]
    · have h4 : st.2 = [] := by
        by_contra hne
        exact h3 hne
      simp [h4, dropWs_append, List.append_assoc]

theorem segmentTexts_content (text : List Char) (t : Nat) :
    dropWs (segmentTexts text t).flatten = dropWs text := by
  have h := foldl_procParagraph_content t (splitPar text) ([], []) []
  simp only [List.flatten_nil, List.nil_append, List.append_nil] at h
  simp only [segmentTexts]
  split_ifs with hne
  · rw [List.flatten_append]
    simp only [List.flatten_cons, List.flatten_nil, List.append_nil]
    rw [dropWs_append, dropWs_pyStrip, ← dropWs_append, h,
      dropWs_flatten_splitPar]
  · simp only [ne_eq, not_not] at hne
    rw [hne, List.append_nil] at h
    rw [h, dropWs_flatten_splitPar]

theorem split_into_chunks_map_text (text file_name : List Char) (t : Nat) :
    (split_into_chunks text file_name t).map Chunk.text = segmentTexts text t := by
  unfold split_into_chunks
  rw [List.map_map]
  exact List.enum_map_snd (segmentTexts text t)

/-! ### Length bound through the segmentation fold (for C2) -/

theorem procSentence_bound {t B : Nat} {st : List (List Char) × List Char}
    {s : List Char} (hs : s.length ≤ B)
    (h1 : ∀ u ∈ st.1, u.length ≤ max (t + 2) B)
    (h2 : st.2.length ≤ max (t + 2) B) :
    (∀ u ∈ (procSentence t st s).1, u.length ≤ max (t + 2) B) ∧
      (procSentence t st s).2.length ≤ max (t + 2) B := by
  unfold procSentence
  split_ifs with hc hd
  · refine ⟨?_, le_trans hs (le_max_right _ _)⟩
    intro u hu
    rcases List.mem_append.1 hu with h | h
    · exact h1 u h
    · simp only [List.mem_singleton] at h
      subst h
      exact le_trans (pyStrip_length_le _) h2
  · refine ⟨h1, ?_⟩
    have hle : st.2.length + s.length ≤ t := by
      by_contra hgt
      exact hc ⟨by omega, hd⟩
    simp only [List.length_append, List.length_cons]
    omega
  · exact ⟨h1, le_trans hs (le_max_right _ _)⟩

theorem foldl_procSentence_bound (t B : Nat) :
    ∀ (sents : List (List Char)) (st : List (List Char) × List Char),
      (∀ s ∈ sents, s.length ≤ B) →
      (∀ u ∈ st.1, u.length ≤ max (t + 2) B) →
      st.2.length ≤ max (t + 2) B →
      (∀ u ∈ (sents.foldl (procSentence t) st).1, u.length ≤ max (t + 2) B) ∧
        (sents.foldl (procSentence t) st).2.length ≤ max (t + 2) B := by
  intro sents
  induction sents with
  | nil => exact fun st _ h1 h2 => ⟨h1, h2⟩
  | cons s rest ih =>
    intro st hsents h1 h2
    rw [List.foldl_cons]
    have hstep := @procSentence_bound t B st s
      (hsents s (List.mem_cons_self _ _)) h1 h2
    exact ih _ (fun x hx => hsents x (List.mem_cons_of_mem _ hx)) hstep.1 hstep.2

theorem procParagraph_bound {t B : Nat} {st : List (List Char) × List Char}
    {p : List Char} (hp : ∀ u ∈ paragraphUnits t p, u.length ≤ B)
    (h1 : ∀ u ∈ st.1, u.length ≤ max (t + 2) B)
    (h2 : st.2.length ≤ max (t + 2) B) :
    (∀ u ∈ (procParagraph t st p).1, u.length ≤ max (t + 2) B) ∧
      (procParagraph t st p).2.length ≤ max (t + 2) B := by
  unfold procParagraph
  split_ifs with hc hd he
  · have hsent : ∀ s ∈ splitNL (replaceDotSpace p), s.length ≤ B := by
      intro s hs
      apply hp
      simpa [paragraphUnits, hc] using hs
    exact foldl_procSentence_bound t B _ st hsent h1 h2
  · have hpB : p.length ≤ B := hp p (by simp [paragraphUnits, hc])
    refine ⟨?_, le_trans hpB (le_max_right _ _)⟩
    intro u hu
    rcases List.mem_append.1 hu with h | h
    · exact h1 u h
    · simp only [List.mem_singleton] at h
      subst h
      exact le_trans (pyStrip_length_le _) h2
  · refine ⟨h1, ?_⟩
    have hle : st.2.length + p.length ≤ t := by
      by_contra hgt
      exact hd ⟨by omega, he⟩
    simp only [List.length_append, List.length_cons]
    omega
  · have hpB : p.length ≤ B := hp p (by simp [paragraphUnits, hc])
    exact ⟨h1, le_trans hpB (le_max_right _ _)⟩

theorem foldl_procParagraph_bound (t B : Nat) :
    ∀ (ps : List (List Char)) (st : List (List Char) × List Char),
      (∀ q ∈ ps, ∀ u ∈ paragraphUnits t q, u.length ≤ B) →
      (∀ u ∈ st.1, u.length ≤ max (t + 2) B) →
      st.2.length ≤ max (t + 2) B →
      (∀ u ∈ (ps.foldl (procParagraph t) st).1, u.length ≤ max (t + 2) B) ∧
        (ps.foldl (procParagraph t) st).2.length ≤ max (t + 2) B := by
  intro ps
  induction ps with
  | nil => exact fun st _ h1 h2 => ⟨h1, h2⟩
  | cons p rest ih =>
    intro st hps h1 h2
    rw [List.foldl_cons]
    have hstep := @procParagraph_bound t B st p
      (hps p (List.mem_cons_self _ _)) h1 h2
    exact ih _ (fun q hq => hps q (List.mem_cons_of_mem _ hq)) hstep.1 hstep.2

theorem length_le_foldr_max (l : List (List Char)) :
    ∀ u ∈ l, u.length ≤ l.foldr (fun u m => max u.length m) 0 := by
  induction l with
  | nil => intro u hu; simp at hu
  | cons x rest ih =>
    intro u hu
    rcases List.mem_cons.1 hu with h | h
    · subst h; exact le_max_left _ _
    · exact le_trans (ih u h) (le_max_right _ _)

theorem segmentTexts_length_le (text : List Char) (t : Nat) :
    ∀ c ∈ segmentTexts text t,
      c.length ≤ max (t + 2) (maxUnitLen text t) := by
  have hunits : ∀ q ∈ splitPar text, ∀ u ∈ paragraphUnits t q,
      u.length ≤ maxUnitLen text t := by
    intro q hq u hu
    apply length_le_foldr_max
    simp only [textUnits, List.mem_flatten]
    exact ⟨paragraphUnits t q, List.mem_map_of_mem _ hq, hu⟩
  have h := foldl_procParagraph_bound t (maxUnitLen text t) (splitPar text)
    ([], []) hunits (by simp) (by simp)
  simp only [segmentTexts]
  split_ifs with hne
  · intro c hc
    rcases List.mem_append.1 hc with hm | hm
    · exact h.1 c hm
    · simp only [List.mem_singleton] at hm
      subst hm
      exact le_trans (pyStrip_length_le _) h.2
  · exact h.1

/-! ### Non-emptiness through the segmentation fold (for C5) -/

theorem procSentence_nonempty {t : Nat} {st : List (List Char) × List Char}
    {s : List Char} (hs : dropWs s ≠ [])
    (h1 : ∀ u ∈ st.1, u ≠ [])
    (h2 : st.2 = [] ∨ dropWs st.2 ≠ []) :
    (∀ u ∈ (procSentence t st s).1, u ≠ []) ∧
      ((procSentence t st s).2 = [] ∨ dropWs (procSentence t st s).2 ≠ []) := by
  unfold procSentence
  split_ifs with hc hd
  · refine ⟨?_, Or.inr hs⟩
    intro u hu
    rcases List.mem_append.1 hu with h | h
    · exact h1 u h
    · simp only [List.mem_singleton] at h
      subst h
      exact pyStrip_ne_nil_of_dropWs _ (h2.resolve_left hc.2)
  · refine ⟨h1, Or.inr ?_⟩
    rw [dropWs_append]
    simp only [ne_eq, List.append_eq_nil]
    intro ⟨ha, _⟩
    exact (h2.resolve_left hd) ha
  · exact ⟨h1, Or.inr hs⟩

theorem foldl_procSentence_nonempty (t : Nat) :
    ∀ (sents : List (List Char)) (st : List (List Char) × List Char),
      (∀ s ∈ sents, dropWs s ≠ []) →
      (∀ u ∈ st.1, u ≠ []) →
      (st.2 = [] ∨ dropWs st.2 ≠ []) →
      (∀ u ∈ (sents.foldl (procSentence t) st).1, u ≠ []) ∧
        ((sents.foldl (procSentence t) st).2 = [] ∨
          dropWs (sents.foldl (procSentence t) st).2 ≠ []) := by
  intro sents
  induction sents with
  | nil => exact fun st _ h1 h2 => ⟨h1, h2⟩
  | cons s rest ih =>
    intro st hsents h1 h2
    rw [List.foldl_cons]
    have hstep := @procSentence_nonempty t st s
      (hsents s (List.mem_cons_self _ _)) h1 h2
    exact ih _ (fun x hx => hsents x (List.mem_cons_of_mem _ hx)) hstep.1 hstep.2

theorem procParagraph_nonempty {t : Nat} {st : List (List Char) × List Char}
    {p : List Char} (hp : ∀ u ∈ paragraphUnits t p, dropWs u ≠ [])
    (h1 : ∀ u ∈ st.1, u ≠ [])
    (h2 : st.2 = [] ∨ dropWs st.2 ≠ []) :
    (∀ u ∈ (procParagraph t st p).1, u ≠ []) ∧
      ((procParagraph t st p).2 = [] ∨ dropWs (procParagraph t st p).2 ≠ []) := by
  unfold procParagraph
  split_ifs with hc hd he
  · have hsent : ∀ s ∈ splitNL (replaceDotSpace p), dropWs s ≠ [] := by
      intro s hs
      apply hp
      simpa [paragraphUnits, hc] using hs
    exact foldl_procSentence_nonempty t _ st hsent h1 h2
  · have hpB : dropWs p ≠ [] := hp p (by simp [paragraphUnits, hc])
    refine ⟨?_, Or.inr hpB⟩
    intro u hu
    rcases List.mem_append.1 hu with h | h
    · exact h1 u h
    · simp only [List.mem_singleton] at h
      subst h
      exact pyStrip_ne_nil_of_dropWs _ (h2.resolve_left hd.2)
  · refine ⟨h1, Or.inr ?_⟩
    rw [dropWs_append]
    simp only [ne_eq, List.append_eq_nil]
    intro ⟨ha, _⟩
    exact (h2.resolve_left he) ha
  · exact ⟨h1, Or.inr (hp p (by simp [paragraphUnits, hc]))⟩

theorem foldl_procParagraph_nonempty (t : Nat) :
    ∀ (ps : List (List Char)) (st : List (List Char) × List Char),
      (∀ q ∈ ps, ∀ u ∈ paragraphUnits t q, dropWs u ≠ []) →
      (∀ u ∈ st.1, u ≠ []) →
      (st.2 = [] ∨ dropWs st.2 ≠ []) →
      (∀ u ∈ (ps.foldl (procParagraph t) st).1, u ≠ []) ∧
        ((ps.foldl (procParagraph t) st).2 = [] ∨
          dropWs (ps.foldl (procParagraph t) st).2 ≠ []) := by
  intro ps
  induction ps with
  | nil => exact fun st _ h1 h2 => ⟨h1, h2⟩
  | cons p rest ih =>
    intro st hps h1 h2
    rw [List.foldl_cons]
    have hstep := @procParagraph_nonempty t st p
      (hps p (List.mem_cons_self _ _)) h1 h2
    exact ih _ (fun q hq => hps q (List.mem_cons_of_mem _ hq)) hstep.1 hstep.2

theorem segmentTexts_nonempty (text : List Char) (t : Nat)
    (hu : ∀ u ∈ textUnits text t, dropWs u ≠ []) :
    ∀ c ∈ segmentTexts text t, c ≠ [] := by
  have hunits : ∀ q ∈ splitPar text, ∀ u ∈ paragraphUnits t q,
      dropWs u ≠ [] := by
    intro q hq u hmem
    apply hu
    simp only [textUnits, List.mem_flatten]
    exact ⟨paragraphUnits t q, List.mem_map_of_mem _ hq, hmem⟩
  have h := foldl_procParagraph_nonempty t (splitPar text) ([], []) hunits
    (by simp) (Or.inl rfl)
  simp only [segmentTexts]
  split_ifs with hne
  · intro c hc
    rcases List.mem_append.1 hc with hm | hm
    · exact h.1 c hm
    · simp only [List.mem_singleton] at hm
      subst hm
      exact pyStrip_ne_nil_of_dropWs _ (h.2.resolve_left hne)
  · exact h.1

/-! ### Embedder lemmas -/

theorem embed_chunks_append {emb : Type} (svc : List Char → Except (List Char) emb)
    (xs ys : List Chunk) :
    (embed_chunks svc (xs ++ ys)).1
        = (embed_chunks svc xs).1 ++ (embed_chunks svc ys).1 ∧
      (embed_chunks svc (xs ++ ys)).2.1
        = (embed_chunks svc xs).2.1 + (embed_chunks svc ys).2.1 ∧
      (embed_chunks svc (xs ++ ys)).2.2
        = (embed_chunks svc xs).2.2 ++ (embed_chunks svc ys).2.2 := by
  induction xs with
  | nil => simp [embed_chunks]
  | cons c rest ih =>
    simp only [List.cons_append, embed_chunks, List.append_eq]
    refine ⟨?_, ?_, ?_⟩
    · rw [ih.1, List.append_assoc]
    · rw [ih.2.1, Nat.add_assoc]
    · rw [ih.2.2, List.append_assoc]

theorem embed_chunks_cons {emb : Type} (svc : List Char → Except (List Char) emb)
    (c : Chunk) (rest : List Chunk) :
    embed_chunks svc (c :: rest)
      = ((embedChunk svc c).1 ++ (embed_chunks svc rest).1,
         (embedChunk svc c).2.1 + (embed_chunks svc rest).2.1,
         (embedChunk svc c).2.2 ++ (embed_chunks svc rest).2.2) := rfl

theorem embedChunk_requests {emb : Type} (svc : List Char → Except (List Char) emb)
    (c : Chunk) :
    ∃ tl, (embedChunk svc c).2.2 = truncate_text c.text 8000 :: tl := by
  cases h : svc (truncate_text c.text 8000) with
  | ok e => exact ⟨[], by simp [embedChunk, h]⟩
  | error e =>
    by_cases hl : isLengthErr e
    · cases h2 : svc (c.text.take (c.text.length / 2)) with
      | ok e2 =>
        exact ⟨[c.text.take (c.text.length / 2)], by simp [embedChunk, h, hl, h2]⟩
      | error e2 =>
        exact ⟨[c.text.take (c.text.length / 2)], by simp [embedChunk, h, hl, h2]⟩
    · exact ⟨[], by simp [embedChunk, h, hl]⟩

/-! ### Uploader lemmas -/

theorem uploadLoop_all_upsert {emb : Type} :
    ∀ (cs : List (EChunk emb)) (acc : List (PineVector emb)),
      ∀ k ∈ uploadLoop cs acc, ∃ vs, k = PineCall.upsert vs := by
  intro cs
  induction cs with
  | nil =>
    intro acc k hk
    simp only [uploadLoop] at hk
    split_ifs at hk with h
    · simp at hk
    · simp only [List.mem_singleton] at hk
      exact ⟨acc, hk⟩
  | cons c rest ih =>
    intro acc k hk
    simp only [uploadLoop] at hk
    split_ifs at hk with h
    · rcases List.mem_cons.1 hk with h2 | h2
      · exact ⟨_, h2⟩
      · exact ih _ k h2
    · exact ih _ k hk

theorem uploadLoop_batches {emb : Type} :
    ∀ (cs : List (EChunk emb)) (acc : List (PineVector emb)),
      acc.length < 100 →
      (upsertBatches (uploadLoop cs acc)).flatten = acc ++ cs.map chunkVector ∧
        (upsertBatches (uploadLoop cs acc)).length
          = (acc.length + cs.length + 99) / 100 := by
  intro cs
  induction cs with
  | nil =>
    intro acc hlt
    simp only [uploadLoop]
    split_ifs with h
    · have : acc = [] := List.isEmpty_iff.1 h
      subst this
      simp [upsertBatches]
    · have hne : acc ≠ [] := by
        intro hz
        rw [hz] at h
        exact h rfl
      have hpos : 0 < acc.length := List.length_pos.2 hne
      constructor
      · simp [upsertBatches, upsertPayload]
      · simp only [upsertBatches, List.filterMap_cons, upsertPayload,
          List.filterMap_nil, List.length_cons, List.length_nil]
        omega
  | cons c rest ih =>
    intro acc hlt
    simp only [uploadLoop]
    split_ifs with h
    · have hlen : (acc ++ [chunkVector c]).length = 100 := by
        simp only [List.length_append, List.length_cons, List.length_nil] at h ⊢
        omega
      have h0 : (0 : Nat) < 100 := by omega
      obtain ⟨ih1, ih2⟩ := ih [] h0
      constructor
      · simp only [upsertBatches, List.filterMap_cons, upsertPayload]
        rw [List.flatten_cons]
        rw [upsertBatches] at ih1
        rw [ih1]
        simp [List.append_assoc]
      · have h99 : acc.length = 99 := by
          simp only [List.length_append, List.length_cons, List.length_nil] at hlen
          omega
        simp only [upsertBatches, List.filterMap_cons, upsertPayload,
          List.length_cons]
        rw [upsertBatches] at ih2
        rw [ih2]
        simp only [List.length_nil, List.length_cons, h99]
        omega
    · have hlen : (acc ++ [chunkVector c]).length < 100 := by
        simp only [List.length_append, List.length_cons, List.length_nil] at h ⊢
        omega
      obtain ⟨ih1, ih2⟩ := ih (acc ++ [chunkVector c]) hlen
      constructor
      · rw [ih1]
        simp [List.append_assoc]
      · rw [ih2]
        simp only [List.length_append, List.length_cons, List.length_nil]
        omega

theorem upsertBatches_setup {emb : Type} (existing : List (List Char))
    (index_name : List Char) (calls : List (PineCall emb)) :
    upsertBatches (setup_pinecone existing index_name ++ calls)
      = upsertBatches calls := by
  unfold setup_pinecone
  split_ifs with h
  · simp [upsertBatches, upsertPayload]
  · simp [upsertBatches, upsertPayload]

/-! ### Claim C1 -/

/-- Claim C1 as stated is false: the single request sent to the embedding
service for `bigChunk` (32001 characters) is the 32000-character truncation,
but the chunk passed on to the Sink stores the original, untruncated text.
The primary-path defensive truncation (embedder.py line 54) never rewrites
`chunk["text"]` (lines 66-69 copy the chunk unchanged). -/
theorem embed_sink_text_equality_cex :
    (embed_chunks svcLen [bigChunk]).2.2 = [List.take 32000 bigChunk.text] ∧
      (embed_chunks svcLen [bigChunk]).1.map EChunk.text = [bigChunk.text] ∧
      bigChunk.text ≠ List.take 32000 bigChunk.text := by
  have hlen : bigChunk.text.length = 32001 := by
    show (List.replicate 32001 'a').length = 32001
    rw [List.length_replicate]
  have h1 : truncate_text bigChunk.text 8000 = List.take 32000 bigChunk.text := by
    simp only [truncate_text]
    rw [hlen]
    norm_num
  have h2 : svcLen (List.take 32000 bigChunk.text) = .ok 32000 := by
    simp [svcLen, List.length_take, hlen]
  refine ⟨?_, ?_, ?_⟩
  · simp [embed_chunks, embedChunk, h1, h2]
  · simp [embed_chunks, embedChunk, h1, h2]
  · intro h
    have hc := congrArg List.length h
    rw [hlen, List.length_take, hlen] at hc
    norm_num at hc

/-- Claim C1 (amended): a chunk that reaches the Sink carries an embedding
consistent with its stored text only up to the primary-path defensive
truncation: if the chunk was produced by the retry path (`truncated = true`)
its stored text is exactly the text that was embedded; otherwise the
embedding was computed for `truncate_text` of its stored text, which equals
the stored text only when that text is within the 32000-character limit. -/
theorem embed_sink_text_consistency {emb : Type}
    (svc : List Char → Except (List Char) emb) :
    ∀ (cs : List Chunk) (ec : EChunk emb), ec ∈ (embed_chunks svc cs).1 →
      (ec.truncated = true → svc ec.text = .ok ec.embedding) ∧
        (ec.truncated = false →
          svc (truncate_text ec.text 8000) = .ok ec.embedding) := by
  intro cs
  induction cs with
  | nil => intro ec h; simp [embed_chunks] at h
  | cons c rest ih =>
    intro ec h
    rw [embed_chunks_cons] at h
    rcases List.mem_append.1 h with hm | hm
    · cases hr : svc (truncate_text c.text 8000) with
      | ok e =>
        simp [embedChunk, hr] at hm
        subst hm
        refine ⟨fun ht => by simp at ht, fun _ => ?_⟩
        exact hr
      | error e =>
        by_cases hl : isLengthErr e
        · cases hr2 : svc (c.text.take (c.text.length / 2)) with
          | ok e2 =>
            simp [embedChunk, hr, hl, hr2] at hm
            subst hm
            refine ⟨fun _ => hr2, fun hf => by simp at hf⟩
          | error e2 =>
            simp [embedChunk, hr, hl, hr2] at hm
        · simp [embedChunk, hr, hl] at hm
    · exact ih ec hm

/-- Witness for C1 (amended): the output chunk of a run on `cSmall` with the
always-succeeding service satisfies the consistency property. -/
theorem embed_sink_text_consistency_witness :
    (({ id := 3, text := ['h', 'i'], metadata := { source := ['s'] },
        embedding := 0, truncated := false } : EChunk Nat)
        ∈ (embed_chunks svcZero [cSmall]).1) ∧
      ((({ id := 3, text := ['h', 'i'], metadata := { source := ['s'] },
            embedding := 0, truncated := false } : EChunk Nat).truncated = true →
          svcZero ['h', 'i'] = .ok 0) ∧
        (({ id := 3, text := ['h', 'i'], metadata := { source := ['s'] },
            embedding := 0, truncated := false } : EChunk Nat).truncated = false →
          svcZero (truncate_text ['h', 'i'] 8000) = .ok 0)) :=
  ⟨by decide, embed_sink_text_consistency svcZero [cSmall] _ (by decide)⟩

/-! ### Claim C3 -/

/-- Claim C3 as stated is false: with `svcTok`, the single chunk `cTok` fails
its primary request (counter reaches 1) but its retry succeeds, so no chunk
is excluded from the output — the reported count is 1 while the number of
excluded chunks is 0. -/
theorem failure_count_claim_cex :
    (embed_chunks svcTok [cTok]).2.1 = 1 ∧
      (embed_chunks svcTok [cTok]).1.length = 1 ∧
      ¬ ((embed_chunks svcTok [cTok]).2.1
          = [cTok].length - (embed_chunks svcTok [cTok]).1.length) := by
  decide

/-- Claim C3 (amended): the reported failure count equals the number of
chunks whose primary request fails — `failures += 1` (embedder.py line 73)
runs before the retry, so a chunk recovered by a successful retry is still
counted.  The number of chunks excluded from the output equals the number of
chunks whose primary request fails and which no successful retry recovers. -/
theorem failure_count_primary {emb : Type}
    (svc : List Char → Except (List Char) emb) :
    ∀ cs : List Chunk,
      (embed_chunks svc cs).2.1 = cs.countP (primaryFails svc) ∧
        (embed_chunks svc cs).1.length + cs.countP (chunkDropped svc)
          = cs.length := by
  intro cs
  induction cs with
  | nil => simp [embed_chunks]
  | cons c rest ih =>
    rw [embed_chunks_cons]
    simp only [List.countP_cons, List.length_cons, List.length_append]
    cases hr : svc (truncate_text c.text 8000) with
    | ok e =>
      have hp : primaryFails svc c = false := by simp [primaryFails, hr]
      have hd : chunkDropped svc c = false := by simp [chunkDropped, hr]
      have h1 : (embedChunk svc c).1.length = 1 := by simp [embedChunk, hr]
      have h2 : (embedChunk svc c).2.1 = 0 := by simp [embedChunk, hr]
      rw [h1, h2, hp, hd]
      simp only [Bool.false_eq_true, if_false]
      obtain ⟨ih1, ih2⟩ := ih
      omega
    | error e =>
      have hp : primaryFails svc c = true := by simp [primaryFails, hr]
      by_cases hl : isLengthErr e
      · cases hr2 : svc (c.text.take (c.text.length / 2)) with
        | ok e2 =>
          have hd : chunkDropped svc c = false := by
            simp [chunkDropped, hr, hl, hr2]
          have h1 : (embedChunk svc c).1.length = 1 := by
            simp [embedChunk, hr, hl, hr2]
          have h2 : (embedChunk svc c).2.1 = 1 := by
            simp [embedChunk, hr, hl, hr2]
          rw [h1, h2, hp, hd]
          simp only [if_true, Bool.false_eq_true, if_false]
          obtain ⟨ih1, ih2⟩ := ih
          omega
        | error e2 =>
          have hd : chunkDropped svc c = true := by
            simp [chunkDropped, hr, hl, hr2]
          have h1 : (embedChunk svc c).1.length = 0 := by
            simp [embedChunk, hr, hl, hr2]
          have h2 : (embedChunk svc c).2.1 = 1 := by
            simp [embedChunk, hr, hl, hr2]
          rw [h1, h2, hp, hd]
          simp only [if_true]
          obtain ⟨ih1, ih2⟩ := ih
          omega
      · have hd : chunkDropped svc c = true := by simp [chunkDropped, hr, hl]
        have h1 : (embedChunk svc c).1.length = 0 := by simp [embedChunk, hr, hl]
        have h2 : (embedChunk svc c).2.1 = 1 := by simp [embedChunk, hr, hl]
        rw [h1, h2, hp, hd]
        simp only [if_true]
        obtain ⟨ih1, ih2⟩ := ih
        omega

/-! ### Claim C4 -/

/-- Claim C4: for a chunk whose primary request fails with message `e`:
if the message is length-related, exactly one retry is sent, carrying the
chunk's text truncated to half its original character length; on retry
success the chunk enters the output with `truncated := true` and the
truncated text as its stored text; on retry failure, or on a non-length
failure, the chunk contributes nothing to the output. -/
theorem embed_retry_behavior {emb : Type}
    (svc : List Char → Except (List Char) emb) (t1 t2 : List Chunk)
    (c : Chunk) (e : List Char)
    (hp : svc (truncate_text c.text 8000) = .error e) :
    (embed_chunks svc (t1 ++ c :: t2)).2.2
        = (embed_chunks svc t1).2.2
          ++ (truncate_text c.text 8000
              :: (if isLengthErr e then [c.text.take (c.text.length / 2)]
                  else []))
          ++ (embed_chunks svc t2).2.2
      ∧ (embed_chunks svc (t1 ++ c :: t2)).1
        = (embed_chunks svc t1).1
          ++ (if isLengthErr e then
                match svc (c.text.take (c.text.length / 2)) with
                | .ok embedding =>
                  [{ id := c.id, text := c.text.take (c.text.length / 2),
                     metadata := c.metadata, embedding := embedding,
                     truncated := true }]
                | .error _ => []
              else [])
          ++ (embed_chunks svc t2).1 := by
  obtain ⟨h1, _h2, h3⟩ := embed_chunks_append svc t1 (c :: t2)
  by_cases hl : isLengthErr e
  · cases hr : svc (c.text.take (c.text.length / 2)) with
    | ok emb2 =>
      have hec : embedChunk svc c
          = ([{ id := c.id, text := c.text.take (c.text.length / 2),
                metadata := c.metadata, embedding := emb2, truncated := true }],
             1, [truncate_text c.text 8000, c.text.take (c.text.length / 2)]) := by
        simp [embedChunk, hp, hl, hr]
      refine ⟨?_, ?_⟩
      · rw [h3, embed_chunks_cons]
        simp [hec, hl, List.append_assoc]
      · rw [h1, embed_chunks_cons]
        simp [hec, hl, hr, List.append_assoc]
    | error e2 =>
      have hec : embedChunk svc c
          = ([], 1,
             [truncate_text c.text 8000, c.text.take (c.text.length / 2)]) := by
        simp [embedChunk, hp, hl, hr]
      refine ⟨?_, ?_⟩
      · rw [h3, embed_chunks_cons]
        simp [hec, hl, List.append_assoc]
      · rw [h1, embed_chunks_cons]
        simp [hec, hl, hr, List.append_assoc]
  · have hec : embedChunk svc c = ([], 1, [truncate_text c.text 8000]) := by
      simp [embedChunk, hp, hl]
    refine ⟨?_, ?_⟩
    · rw [h3, embed_chunks_cons]
      simp [hec, hl, List.append_assoc]
    · rw [h1, embed_chunks_cons]
      simp [hec, hl, List.append_assoc]

/-- Witness for C4: `cTok` against `svcTok` fails its primary request with
the message `"token"`, and its successful retry is included with the
half-length text and the `truncated` flag. -/
theorem embed_retry_behavior_witness :
    svcTok (truncate_text cTok.text 8000) = .error ['t', 'o', 'k', 'e', 'n'] ∧
      ((embed_chunks svcTok ([] ++ cTok :: [])).2.2
          = (embed_chunks svcTok []).2.2
            ++ (truncate_text cTok.text 8000
                :: (if isLengthErr ['t', 'o', 'k', 'e', 'n'] then
                      [cTok.text.take (cTok.text.length / 2)]
                    else []))
            ++ (embed_chunks svcTok []).2.2
        ∧ (embed_chunks svcTok ([] ++ cTok :: [])).1
          = (embed_chunks svcTok []).1
            ++ (if isLengthErr ['t', 'o', 'k', 'e', 'n'] then
                  match svcTok (cTok.text.take (cTok.text.length / 2)) with
                  | .ok embedding =>
                    [{ id := cTok.id,
                       text := cTok.text.take (cTok.text.length / 2),
                       metadata := cTok.metadata, embedding := embedding,
                       truncated := true }]
                  | .error _ => []
                else [])
            ++ (embed_chunks svcTok []).1) :=
  ⟨rfl,
   embed_retry_behavior svcTok [] [] cTok ['t', 'o', 'k', 'e', 'n'] rfl⟩

/-! ### Claim C6 -/

/-- Claim C6: wherever a chunk occurs in a run, the text passed to its
primary embedding request is `truncate_text` of its text: the text truncated
to exactly `8000 * 4 = 32000` characters when it is longer than that, and
the unmodified text otherwise. -/
theorem primary_request_truncation {emb : Type}
    (svc : List Char → Except (List Char) emb) (t1 t2 : List Chunk)
    (c : Chunk) :
    ∃ tl,
      (embed_chunks svc (t1 ++ c :: t2)).2.2
          = (embed_chunks svc t1).2.2 ++ truncate_text c.text 8000 :: tl
        ∧ truncate_text c.text 8000
          = (if 8000 * 4 < c.text.length then c.text.take (8000 * 4)
             else c.text) := by
  obtain ⟨_, _, h3⟩ := embed_chunks_append svc t1 (c :: t2)
  obtain ⟨tl, htl⟩ := embedChunk_requests svc c
  refine ⟨tl ++ (embed_chunks svc t2).2.2, ?_, rfl⟩
  rw [h3, embed_chunks_cons]
  simp [htl, List.append_assoc]

/-! ### Claim C10 -/

/-- Claim C10: the output of `embed_chunks` is an order-preserving selection
of its input: projecting each output chunk to its `(id, metadata)` pair
yields a sublist of the input chunks' `(id, metadata)` pairs, so each output
element derives from a distinct input chunk, keeps its id and metadata, and
the input order is preserved. -/
theorem embed_order_preserving {emb : Type}
    (svc : List Char → Except (List Char) emb) (cs : List Chunk) :
    List.Sublist
      ((embed_chunks svc cs).1.map (fun ec => (ec.id, ec.metadata)))
      (cs.map (fun c => (c.id, c.metadata))) := by
  induction cs with
  | nil => simp [embed_chunks]
  | cons c rest ih =>
    rw [embed_chunks_cons]
    simp only [List.map_append, List.map_cons]
    cases hr : svc (truncate_text c.text 8000) with
    | ok e =>
      have : (embedChunk svc c).1
          = [{ id := c.id, text := c.text, metadata := c.metadata,
               embedding := e, truncated := false }] := by
        simp [embedChunk, hr]
      simp only [this, List.map_cons, List.map_nil, List.singleton_append]
      exact List.Sublist.cons₂ _ ih
    | error e =>
      by_cases hl : isLengthErr e
      · cases hr2 : svc (c.text.take (c.text.length / 2)) with
        | ok e2 =>
          have : (embedChunk svc c).1
              = [{ id := c.id, text := c.text.take (c.text.length / 2),
                   metadata := c.metadata, embedding := e2,
                   truncated := true }] := by
            simp [embedChunk, hr, hl, hr2]
          simp only [this, List.map_cons, List.map_nil, List.singleton_append]
          exact List.Sublist.cons₂ _ ih
        | error e2 =>
          have : (embedChunk svc c).1 = [] := by
            simp [embedChunk, hr, hl, hr2]
          simp only [this, List.map_nil, List.nil_append]
          exact List.Sublist.cons _ ih
      · have : (embedChunk svc c).1 = [] := by
          simp [embedChunk, hr, hl]
        simp only [this, List.map_nil, List.nil_append]
        exact List.Sublist.cons _ ih

/-! ### Claim C7 -/

set_option maxRecDepth 100000 in
/-- Claim C7: the Sink partitions the embedded chunks into upsert batches:
the concatenation of the batches is exactly the input chunks' vectors in
order (each chunk in exactly one batch), the number of upsert calls is
`⌈N/100⌉` (written `(N + 99) / 100` in natural division), and for 250
embedded chunks exactly 3 upsert calls occur with batch sizes
`[100, 100, 50]`. -/
theorem upload_batching :
    (∀ (emb : Type) (existing : List (List Char)) (index_name : List Char)
        (cs : List (EChunk emb)),
      (upsertBatches (upload_to_pinecone existing cs index_name)).flatten
          = cs.map chunkVector ∧
        (upsertBatches (upload_to_pinecone existing cs index_name)).length
          = (cs.length + 99) / 100) ∧
      (upsertBatches (upload_to_pinecone [] cs250 ['i', 'd', 'x'])).map
          List.length
        = [100, 100, 50] := by
  constructor
  · intro emb existing index_name cs
    rw [upload_to_pinecone, upsertBatches_setup]
    have h := uploadLoop_batches cs [] (by simp)
    simpa using h
  · decide

/-! ### Claim C8 -/

/-- Claim C8: when the index name is not among the existing index names, the
very first Pinecone call is `create_index(name, dimension=1536,
metric="cosine")` and every later call is an upsert (so the creation precedes
every upsert); when the name is already present, every call is an upsert
(no create-index call occurs). -/
theorem upload_index_provisioning {emb : Type} (existing : List (List Char))
    (index_name : List Char) (cs : List (EChunk emb)) :
    (index_name ∉ existing →
        ∃ rest, upload_to_pinecone existing cs index_name
              = PineCall.createIndex index_name 1536
                  ['c', 'o', 's', 'i', 'n', 'e'] :: rest
          ∧ ∀ k ∈ rest, ∃ vs, k = PineCall.upsert vs) ∧
      (index_name ∈ existing →
        ∀ k ∈ upload_to_pinecone existing cs index_name,
          ∃ vs, k = PineCall.upsert vs) := by
  constructor
  · intro h
    refine ⟨uploadLoop cs [], ?_, uploadLoop_all_upsert cs []⟩
    simp [upload_to_pinecone, setup_pinecone, h]
  · intro h k hk
    rw [upload_to_pinecone] at hk
    simp only [setup_pinecone, h, not_true_eq_false, if_false,
      List.nil_append] at hk
    exact uploadLoop_all_upsert cs [] k hk

/-- Witness for C8: both cases at concrete inputs — a fresh index name on an
empty index list triggers creation first; a present name yields only
upserts. -/
theorem upload_index_provisioning_witness :
    (∃ rest, upload_to_pinecone ([] : List (List Char))
          ([] : List (EChunk Nat)) ['i']
            = PineCall.createIndex ['i'] 1536
                ['c', 'o', 's', 'i', 'n', 'e'] :: rest
        ∧ ∀ k ∈ rest, ∃ vs, k = PineCall.upsert vs) ∧
      (∀ k ∈ upload_to_pinecone [['i']] ([] : List (EChunk Nat)) ['i'],
        ∃ vs, k = PineCall.upsert vs) :=
  ⟨(upload_index_provisioning [] ['i'] []).1 (by decide),
   (upload_index_provisioning [['i']] ['i'] []).2 (by decide)⟩

/-! ### Claim C2 -/

/-- Claim C2 as stated is false: for the six-character single-paragraph text
`"aaaaaa"` and `targetSize = 4`, the produced chunk has length `6 > 4`,
yet no atomic unit exceeds `1.5 × 4 = 6` (the only unit has length exactly
6, and `2·6 > 3·4` fails), so neither the bound nor the exception of the
claim applies. -/
theorem chunk_length_claim_cex :
    ¬ (∀ c ∈ split_into_chunks (List.replicate 6 'a') ['s'] 4,
        c.text.length ≤ 4 ∨
          ∃ u ∈ textUnits (List.replicate 6 'a') 4,
            2 * u.length > 3 * 4 ∧ c.text.length = u.length) := by
  decide

/-- Claim C2 (amended): every chunk's text length is bounded by the maximum
of `targetSize + 2` (the accumulator may exceed `targetSize` by the
two-character `"\n\n"` join, or the one-character `" "` join, before it is
flushed) and the length of the longest atomic unit — where an atomic unit
(a paragraph, or a pseudo-sentence of a paragraph longer than
`1.5 × targetSize`) of any length above `targetSize`, not only above
`1.5 × targetSize`, can become an oversized chunk; trimming can make an
oversized chunk shorter than its unit, so only the upper bound holds. -/
theorem chunk_length_bound :
    ∀ (text file_name : List Char) (t : Nat),
      ∀ c ∈ split_into_chunks text file_name t,
        c.text.length ≤ max (t + 2) (maxUnitLen text t) := by
  intro text file_name t c hc
  have hmem : c.text ∈ (split_into_chunks text file_name t).map Chunk.text :=
    List.mem_map_of_mem _ hc
  rw [split_into_chunks_map_text] at hmem
  exact segmentTexts_length_le text t _ hmem

/-- Witness for C2 (amended): the single chunk of the one-character text
`"a"` respects the bound. -/
theorem chunk_length_bound_witness :
    ({ id := 0, text := ['a'], metadata := { source := ['s'] } } : Chunk)
        ∈ split_into_chunks ['a'] ['s'] 750 ∧
      ({ id := 0, text := ['a'], metadata := { source := ['s'] } } :
          Chunk).text.length
        ≤ max (750 + 2) (maxUnitLen ['a'] 750) :=
  ⟨by decide, chunk_length_bound ['a'] ['s'] 750 _ (by decide)⟩

/-! ### Claim C5 -/

/-- Claim C5 as stated is false: the whitespace-only input `" "` produces
one chunk (the final `if current_chunk:` check sees the non-empty string
`" "`), whose text after `strip()` is empty. -/
theorem chunk_text_nonempty_cex :
    ¬ (∀ c ∈ split_into_chunks [' '] ['s'] 750, c.text ≠ []) := by
  decide

/-- Claim C5 (amended): every chunk returned by the Segmenter has non-empty
text provided every atomic unit (paragraph, or pseudo-sentence of an
over-long paragraph) of the input contains at least one non-whitespace
character; a whitespace-only unit can be accumulated and flushed as a chunk
whose trimmed text is empty. -/
theorem chunk_text_nonempty :
    ∀ (text file_name : List Char) (t : Nat),
      (∀ u ∈ textUnits text t, dropWs u ≠ []) →
      ∀ c ∈ split_into_chunks text file_name t, c.text ≠ [] := by
  intro text file_name t hu c hc
  have hmem : c.text ∈ (split_into_chunks text file_name t).map Chunk.text :=
    List.mem_map_of_mem _ hc
  rw [split_into_chunks_map_text] at hmem
  exact segmentTexts_nonempty text t hu _ hmem

/-- Witness for C5 (amended): the one-character text `"a"` has a single
non-whitespace unit, and its chunk text is non-empty. -/
theorem chunk_text_nonempty_witness :
    (∀ u ∈ textUnits ['a'] 750, dropWs u ≠ []) ∧
      ({ id := 0, text := ['a'], metadata := { source := ['s'] } } : Chunk)
          ∈ split_into_chunks ['a'] ['s'] 750 ∧
        ({ id := 0, text := ['a'], metadata := { source := ['s'] } } :
            Chunk).text ≠ [] :=
  ⟨by decide, by decide,
   chunk_text_nonempty ['a'] ['s'] 750 (by decide) _ (by decide)⟩

/-! ### Claim C9 -/

/-- Claim C9: for every input text, concatenating the texts of the chunks
produced by the Segmenter and comparing modulo whitespace normalization
(dropping every whitespace character) reconstructs exactly the original
text's content in order: no paragraph content is lost, duplicated, or
reordered. -/
theorem chunks_reconstruct_text (text file_name : List Char) (t : Nat) :
    dropWs ((split_into_chunks text file_name t).map Chunk.text).flatten
      = dropWs text := by
  rw [split_into_chunks_map_text, segmentTexts_content]

end AutoRAG

